import Mathlib

/-!
Verification of the Versioned Knowledge Store Synchronizer specification
against the repository sources (PostgreSQL DDL, Neo4j init script, backend
database configuration).  Pure schema rows and declarative constraints are
embedded from `src/database/postgres/init/01_init.sql` and
`src/database/neo4j/init/01_init.cypher`; the operational core (Version
Ledger, Change Recorder, Embedding Chunker, Graph Topology Synchronizer) is
not present in the repository sources, so those operations are modelled
from the specification and checked against the declarative constraints.
-/

namespace VKS

/-! ## Relational schema (from src/database/postgres/init/01_init.sql) -/

/-- `document_status` enum from the DDL (line 11). -/
inductive DocumentStatus
  | draft
  | published
  | archived
  | deleted
  deriving DecidableEq, Repr

/-- `change_type` enum from the DDL (line 12). -/
inductive ChangeType
  | created
  | updated
  | deleted
  | restored
  deriving DecidableEq, Repr

/-- A row of the `documents` table (DDL lines 65-80); JSONB metadata is kept
as an opaque string, timestamps and workspace/author keys are outside the
claims under verification. -/
structure DocumentRow where
  id : String
  title : String
  content : String
  status : DocumentStatus
  metadata : String
  deriving DecidableEq, Repr

/-- A row of the `document_versions` table (DDL lines 95-107). -/
structure DocumentVersionRow where
  documentId : String
  versionNumber : Nat
  title : String
  content : String
  metadata : String
  authorId : String
  changeSummary : String
  deriving DecidableEq, Repr

/-- A row of the `document_changes` table (DDL lines 110-120); `version_id`
is modelled as the version number the change accompanies. -/
structure DocumentChangeRow where
  documentId : String
  versionNumber : Nat
  changeType : ChangeType
  fieldName : Option String
  oldValue : Option String
  newValue : Option String
  authorId : String
  deriving DecidableEq, Repr

/-- A row of the `document_embeddings` table (DDL lines 83-92); the
`vector(1536)` column is modelled as a list of integers. -/
structure DocumentEmbeddingRow where
  documentId : String
  contentHash : Nat
  chunkIndex : Nat
  chunkText : String
  embedding : List Int
  deriving DecidableEq, Repr

/-- A row of the `ai_insights` table (DDL lines 147-155).  The
`confidence_score DECIMAL(3,2)` column is modelled in hundredths: the
stored rational `v / 100`. -/
structure AiInsightRow where
  documentId : String
  insightType : String
  content : String
  confidenceScoreHundredths : Int
  deriving DecidableEq, Repr

/-! ## ai_insights confidence score (claim C9)

The only constraint the DDL places on `confidence_score` is its column type
`DECIMAL(3,2)`: at most 3 significant digits with 2 after the decimal
point, i.e. values between -9.99 and 9.99 (in hundredths: -999 .. 999).
There is no CHECK constraint restricting it to [0,1]. -/

/-- Acceptance predicate of the `DECIMAL(3,2)` column type, on values in
hundredths. -/
def decimal_3_2_Ok (v : Int) : Bool := (-999 ≤ v) && (v ≤ 999)

/-- Insert into `ai_insights`: the row is stored exactly when its
confidence score fits the `DECIMAL(3,2)` column (DDL line 153); no other
constraint applies to the score. -/
def insertInsight (rows : List AiInsightRow) (r : AiInsightRow) :
    Option (List AiInsightRow) :=
  if decimal_3_2_Ok r.confidenceScoreHundredths then some (rows ++ [r]) else none

/-- Update of an `ai_insights` confidence score at position `i`: accepted
exactly when the new value fits the `DECIMAL(3,2)` column. -/
def updateInsightConfidence (rows : List AiInsightRow) (i : Nat) (v : Int) :
    Option (List AiInsightRow) :=
  if decimal_3_2_Ok v then
    some (rows.set i
      (match rows.get? i with
       | some r => { r with confidenceScoreHundredths := v }
       | none => { documentId := "", insightType := "", content := "",
                   confidenceScoreHundredths := v }))
  else none

/-! ## Backend pool configuration (claim C10)

From `src/backend/src/database/neo4j.js`: the pg `Pool` is constructed with
an options object whose database key is spelled `databse`.  The option
object is embedded as an association list of string options, keys spelled
exactly as in the source. -/

/-- The pg Pool option object from `src/backend/src/database/neo4j.js`
(lines 18-27), string-valued options only, keys spelled exactly as in the
source; each parameter is the corresponding `process.env` variable. -/
def poolConfig (envHost envDb envUser envPassword : Option String) :
    List (String × String) :=
  [("host", envHost.getD "localhost"),
   ("databse", envDb.getD "knowledge_platform"),
   ("user", envUser.getD "knowledge_user"),
   ("password", envPassword.getD "knowledge_password")]

/-- Look up a configuration option by key. -/
def lookupOpt (cfg : List (String × String)) (k : String) : Option String :=
  (cfg.find? (fun p => p.1 == k)).map (fun p => p.2)

/-- The pg driver reads the option named `database`; an option under any
other key (such as the misspelled `databse`) is ignored, and the driver
falls back to its own default database. -/
def effectiveDatabase (cfg : List (String × String)) (driverDefault : String) :
    String :=
  (lookupOpt cfg "database").getD driverDefault

/-! ## Graph store (from src/database/neo4j/init/01_init.cypher) -/

/-- Node labels used by the graph store constraints (cypher lines 2-6) plus
the `System` label used by the init script (line 85). -/
inductive NodeKind
  | user
  | organization
  | workspace
  | document
  | concept
  | system
  deriving DecidableEq, Repr

/-- The relationship taxonomy documented in the cypher init script (lines
23-45), `MANAGES` used by the init script itself (line 113), and the
designated is-about type of the spec's gap detection, modelled as
`IS_ABOUT`. -/
inductive EdgeType
  | REFERENCES
  | CONTAINS
  | SIMILAR_TO
  | VERSION_OF
  | PARENT_OF
  | RELATED_TO
  | PART_OF
  | SYNONYM_OF
  | OPPOSITE_OF
  | CREATED
  | EDITED
  | VIEWED
  | COLLABORATED_WITH
  | BELONGS_TO
  | MANAGES
  | IS_ABOUT
  deriving DecidableEq, Repr

/-- A graph node: the id is unique per the cypher constraints; `name` is
used by Concept nodes, `title` and `slug` by Document nodes. -/
structure GraphNode where
  id : String
  kind : NodeKind
  name : String
  title : String
  slug : String
  deriving DecidableEq, Repr

/-- A typed directed edge of the graph store. -/
structure GraphEdge where
  src : String
  rel : EdgeType
  dst : String
  deriving DecidableEq, Repr

/-- The graph store state: nodes and edges in store order. -/
structure Graph where
  nodes : List GraphNode
  edges : List GraphEdge
  deriving DecidableEq, Repr

/-- The example orphaned-documents query from
`src/database/neo4j/init/01_init.cypher` lines 57-60:
`MATCH (d:Document) WHERE NOT (d)<-[:REFERENCES]-(:Document)
 RETURN d.title, d.slug`.
The MATCH enumerates document nodes in store order; the query has no
ORDER BY clause. -/
def orphanQuery (g : Graph) : List (String × String) :=
  (g.nodes.filter (fun n => n.kind == NodeKind.document
      && !(g.edges.any (fun e => e.rel == EdgeType.REFERENCES && e.dst == n.id
            && g.nodes.any (fun m => m.id == e.src
                  && m.kind == NodeKind.document))))).map
    (fun n => (n.title, n.slug))

/-- Byte-wise comparison of character lists, used to state the
ordered-by-title contract. -/
def charListLe : List Char → List Char → Bool
  | [], _ => true
  | _ :: _, [] => false
  | a :: as, b :: bs =>
    if a.toNat < b.toNat then true
    else if b.toNat < a.toNat then false
    else charListLe as bs

/-- Title comparison used by the ordered-by-title contract. -/
def titleLe (a b : String) : Bool := charListLe a.data b.data

/-- Whether a (title, slug) result list is ordered by title. -/
def titleOrdered : List (String × String) → Bool
  | [] => true
  | [_] => true
  | a :: b :: rest => titleLe a.1 b.1 && titleOrdered (b :: rest)

/-- Whether concept `cid` has an incoming CONTAINS edge from a document
node. -/
def containsFromDocument (g : Graph) (cid : String) : Bool :=
  g.edges.any (fun e => e.rel == EdgeType.CONTAINS && e.dst == cid
    && g.nodes.any (fun d => d.id == e.src && d.kind == NodeKind.document))

/-- The MATCH part of the knowledge-gaps example query from
`src/database/neo4j/init/01_init.cypher` lines 67-70:
`MATCH (d:Document)-[:CONTAINS]->(c:Concept)` produces the document/concept
pairs joined by a CONTAINS edge. -/
def gapQueryMatches (g : Graph) : List (GraphNode × GraphNode) :=
  g.edges.filterMap (fun e =>
    if e.rel == EdgeType.CONTAINS then
      match g.nodes.find? (fun d => d.id == e.src && d.kind == NodeKind.document),
            g.nodes.find? (fun c => c.id == e.dst && c.kind == NodeKind.concept) with
      | some d, some c => some (d, c)
      | _, _ => none
    else none)

/-- The WHERE clause of the knowledge-gaps example query,
`WHERE NOT (c)<-[:CONTAINS]-(:Document)`, applied to the matched pairs. -/
def gapQueryFiltered (g : Graph) : List (GraphNode × GraphNode) :=
  (gapQueryMatches g).filter (fun p => !(containsFromDocument g p.2.id))

/-- The knowledge-gaps example query from
`src/database/neo4j/init/01_init.cypher` lines 67-70:
`MATCH (d:Document)-[:CONTAINS]->(c:Concept)
 WHERE NOT (c)<-[:CONTAINS]-(:Document)
 RETURN c.name, collect(d.title) as mentioned_in`.
The RETURN groups the surviving rows by concept, collecting the document
titles. -/
def gapQuery (g : Graph) : List (String × List String) :=
  ((gapQueryFiltered g).map (fun p => p.2)).eraseDups.map (fun c =>
    (c.name, ((gapQueryFiltered g).filter (fun p => p.2.id == c.id)).map
      (fun p => p.1.title)))

/-- Modelled from the spec: the Analytics Engine's gap detection (§4.6),
whose implementation is not in the repository sources — concepts with at
least one incoming CONTAINS edge from a document and zero edges of the
designated is-about type (`IS_ABOUT`), returned as the concept name with
the titles of the documents mentioning it. -/
def specGapConcepts (g : Graph) : List (String × List String) :=
  (g.nodes.filter (fun c => c.kind == NodeKind.concept
      && containsFromDocument g c.id
      && !(g.edges.any (fun e => e.rel == EdgeType.IS_ABOUT
             && e.dst == c.id)))).map
    (fun c => (c.name,
      (g.edges.filterMap (fun e =>
        if e.rel == EdgeType.CONTAINS && e.dst == c.id then
          (g.nodes.find? (fun d => d.id == e.src
              && d.kind == NodeKind.document)).map (fun d => d.title)
        else none))))

/-- Modelled from the spec: the write operations the Graph Topology
Synchronizer (§4.4) and the soft-delete detach (§3 lifecycle) issue against
the graph store; their implementation is not in the repository sources.
The synchronizer upserts Document and Concept nodes, upserts and removes
CONTAINS and REFERENCES edges, and detaches a node on soft delete. -/
inductive GraphOp
  | upsertDocumentNode (docId title slug : String)
  | upsertConceptNode (conceptId name : String)
  | upsertContainsEdge (docId conceptId : String)
  | upsertReferencesEdge (srcDocId dstDocId : String)
  | removeContainsEdge (docId conceptId : String)
  | removeReferencesEdge (srcDocId dstDocId : String)
  | detachNode (nodeId : String)
  deriving DecidableEq, Repr

/-- Idempotent node upsert keyed by node id. -/
def upsertNode (g : Graph) (n : GraphNode) : Graph :=
  if g.nodes.any (fun m => m.id == n.id) then g
  else { nodes := g.nodes ++ [n], edges := g.edges }

/-- Idempotent edge upsert. -/
def upsertEdge (g : Graph) (e : GraphEdge) : Graph :=
  if g.edges.any (fun f => f == e) then g
  else { nodes := g.nodes, edges := g.edges ++ [e] }

/-- Edge removal. -/
def deleteEdge (g : Graph) (e : GraphEdge) : Graph :=
  { nodes := g.nodes, edges := g.edges.filter (fun f => !(f == e)) }

/-- Modelled from the spec: the effect of each synchronizer graph
operation on the graph store. A detach removes the node's edges but keeps
the node as a tombstone (§3 lifecycle). -/
def applyGraphOp (g : Graph) : GraphOp → Graph
  | .upsertDocumentNode d t sl =>
      upsertNode g { id := d, kind := NodeKind.document, name := "",
                     title := t, slug := sl }
  | .upsertConceptNode c nm =>
      upsertNode g { id := c, kind := NodeKind.concept, name := nm,
                     title := "", slug := "" }
  | .upsertContainsEdge d c =>
      upsertEdge g { src := d, rel := EdgeType.CONTAINS, dst := c }
  | .upsertReferencesEdge a b =>
      upsertEdge g { src := a, rel := EdgeType.REFERENCES, dst := b }
  | .removeContainsEdge d c =>
      deleteEdge g { src := d, rel := EdgeType.CONTAINS, dst := c }
  | .removeReferencesEdge a b =>
      deleteEdge g { src := a, rel := EdgeType.REFERENCES, dst := b }
  | .detachNode nodeId =>
      { nodes := g.nodes,
        edges := g.edges.filter (fun f => !(f.src == nodeId || f.dst == nodeId)) }

/-- A sequence of synchronizer graph operations applied in order. -/
def applyGraphOps (g : Graph) (ops : List GraphOp) : Graph :=
  ops.foldl applyGraphOp g

/-- Modelled from the spec: the graph-op plan `syncTopology` (§4.4) issues
— ensure the document node, upsert concept nodes and CONTAINS edges,
upsert REFERENCES edges, then remove the stale edges of the previous
extraction. -/
def syncTopologyOps (docId title slug : String)
    (concepts : List (String × String)) (refs : List String)
    (staleConcepts staleRefs : List String) : List GraphOp :=
  GraphOp.upsertDocumentNode docId title slug
    :: (concepts.map (fun c => GraphOp.upsertConceptNode c.1 c.2)
      ++ concepts.map (fun c => GraphOp.upsertContainsEdge docId c.1)
      ++ refs.map (fun r => GraphOp.upsertReferencesEdge docId r)
      ++ staleConcepts.map (fun c => GraphOp.removeContainsEdge docId c)
      ++ staleRefs.map (fun r => GraphOp.removeReferencesEdge docId r))

/-- Modelled from the spec: `syncTopology` (§4.4) applies its op plan. -/
def syncTopology (g : Graph) (docId title slug : String)
    (concepts : List (String × String)) (refs : List String)
    (staleConcepts staleRefs : List String) : Graph :=
  applyGraphOps g
    (syncTopologyOps docId title slug concepts refs staleConcepts staleRefs)

/-- The initial graph-store state created by
`src/database/neo4j/init/01_init.cypher` lines 84-148: the system node, the
default organization and workspace, three concept categories, and their
CONTAINS/MANAGES/RELATED_TO relationships. -/
def initGraph : Graph :=
  { nodes :=
      [{ id := "system", kind := NodeKind.system,
         name := "Knowledge Platform System", title := "", slug := "" },
       { id := "default-org", kind := NodeKind.organization,
         name := "Default Organization", title := "", slug := "default" },
       { id := "default-workspace", kind := NodeKind.workspace,
         name := "General", title := "", slug := "general" },
       { id := "concept-category-general", kind := NodeKind.concept,
         name := "General Concepts", title := "", slug := "" },
       { id := "concept-category-technical", kind := NodeKind.concept,
         name := "Technical Concepts", title := "", slug := "" },
       { id := "concept-category-process", kind := NodeKind.concept,
         name := "Process Concepts", title := "", slug := "" }],
    edges :=
      [{ src := "default-org", rel := EdgeType.CONTAINS,
         dst := "default-workspace" },
       { src := "system", rel := EdgeType.MANAGES, dst := "default-org" },
       { src := "default-workspace", rel := EdgeType.CONTAINS,
         dst := "concept-category-general" },
       { src := "default-workspace", rel := EdgeType.CONTAINS,
         dst := "concept-category-technical" },
       { src := "default-workspace", rel := EdgeType.CONTAINS,
         dst := "concept-category-process" },
       { src := "concept-category-general", rel := EdgeType.RELATED_TO,
         dst := "concept-category-technical" },
       { src := "concept-category-technical", rel := EdgeType.RELATED_TO,
         dst := "concept-category-process" },
       { src := "concept-category-process", rel := EdgeType.RELATED_TO,
         dst := "concept-category-general" }] }

/-- A graph with two orphan documents whose store order disagrees with
title order, used against the ordered-by-title part of the orphan claim. -/
def orphanExampleGraph : Graph :=
  { nodes :=
      [{ id := "doc-b", kind := NodeKind.document, name := "",
         title := "bravo", slug := "b" },
       { id := "doc-a", kind := NodeKind.document, name := "",
         title := "alpha", slug := "a" }],
    edges := [] }

/-- A graph with one document containing one concept and no is-about
edges: a qualifying knowledge gap per the spec. -/
def gapExampleGraph : Graph :=
  { nodes :=
      [{ id := "doc-1", kind := NodeKind.document, name := "",
         title := "Doc One", slug := "doc-one" },
       { id := "concept-1", kind := NodeKind.concept, name := "Alpha",
         title := "", slug := "" }],
    edges := [{ src := "doc-1", rel := EdgeType.CONTAINS, dst := "concept-1" }] }

/-! ## Embedding chunker and indexer (spec §4.3)

The chunker implementation is not in the repository sources; the chunk
identity and uniqueness constraint come from the `document_embeddings`
DDL (UNIQUE(document_id, content_hash, chunk_index), lines 83-92). -/

/-- Modelled from the spec: the deterministic chunking policy (§4.3),
splitting content at blank lines (paragraph boundaries); the accumulator
holds the current chunk's characters in reverse. -/
def splitParas : List Char → List Char → List String
  | [], acc => [String.mk acc.reverse]
  | '\n' :: '\n' :: rest, acc => String.mk acc.reverse :: splitParas rest []
  | c :: rest, acc => splitParas rest (c :: acc)

/-- The deterministic ordered chunk decomposition of a content string. -/
def chunksOf (content : String) : List String := splitParas content.data []

/-- Content hash of a chunk text: a 64-bit polynomial rolling digest of
the characters. -/
def contentHash (t : String) : Nat :=
  t.data.foldl (fun h c => (h * 131 + c.toNat) % 18446744073709551616) 5381

/-- Modelled from the spec: the external embedding provider (§6), an
opaque deterministic fixed-length-vector function. -/
def embedText (t : String) : List Int := [Int.ofNat (contentHash t)]

/-- Whether a chunk row with the given (documentId, hash, index) identity
already exists among the rows. -/
def hasChunk (rows : List DocumentEmbeddingRow) (docId : String)
    (h i : Nat) : Bool :=
  rows.any (fun r => r.documentId == docId && r.contentHash == h
    && r.chunkIndex == i)

/-- Modelled from the spec: the chunk operations emitted by
`reconcileChunks` (§4.3); an insert carries the chunk text and is the only
operation that invokes the embedding provider. -/
inductive ChunkOp
  | keep (docId : String) (hash index : Nat)
  | insert (docId : String) (hash index : Nat) (text : String)
  | delete (docId : String) (hash index : Nat)
  deriving DecidableEq, Repr

/-- Whether a chunk operation is an insert (an embedding-provider call). -/
def isInsertOp : ChunkOp → Bool
  | ChunkOp.insert _ _ _ _ => true
  | _ => false

/-- Whether a chunk operation is a keep. -/
def isKeepOp : ChunkOp → Bool
  | ChunkOp.keep _ _ _ => true
  | _ => false

/-- Whether a chunk operation is a delete. -/
def isDeleteOp : ChunkOp → Bool
  | ChunkOp.delete _ _ _ => true
  | _ => false

/-- Modelled from the spec: the keep/insert plan of `reconcileChunks`
(§4.3) over the indexed chunk list — a chunk whose (documentId, hash,
index) already exists is kept, otherwise it is inserted; existence is
checked against the chunk rows as of the start of the call. -/
def planPairs (rows : List DocumentEmbeddingRow) (docId : String) :
    List (Nat × String) → List ChunkOp
  | [] => []
  | (i, t) :: rest =>
    (if hasChunk rows docId (contentHash t) i then
        ChunkOp.keep docId (contentHash t) i
      else ChunkOp.insert docId (contentHash t) i t)
      :: planPairs rows docId rest

/-- The (hash, index) identity set of the new chunk decomposition. -/
def newPairs (content : String) : List (Nat × Nat) :=
  (chunksOf content).enum.map (fun p => (contentHash p.2, p.1))

/-- Whether a (hash, index) pair belongs to an identity set. -/
def pairMem (np : List (Nat × Nat)) (h i : Nat) : Bool :=
  np.any (fun q => q.1 == h && q.2 == i)

/-- Modelled from the spec: `reconcileChunks` (§4.3) — keep or insert per
new chunk, and delete every existing chunk of the document whose (hash,
index) no longer appears in the new decomposition. -/
def reconcileChunks (rows : List DocumentEmbeddingRow)
    (docId content : String) : List ChunkOp :=
  planPairs rows docId (chunksOf content).enum
    ++ (rows.filter (fun r => r.documentId == docId
          && !(pairMem (newPairs content) r.contentHash r.chunkIndex))).map
        (fun r => ChunkOp.delete docId r.contentHash r.chunkIndex)

/-- Modelled from the spec: applying one chunk operation to the chunk
rows — an insert invokes the embedding provider and appends the row, a
delete removes the matching rows, a keep leaves the rows unchanged. -/
def applyChunkOp (rows : List DocumentEmbeddingRow) :
    ChunkOp → List DocumentEmbeddingRow
  | ChunkOp.keep _ _ _ => rows
  | ChunkOp.insert d h i t =>
      rows ++ [{ documentId := d, contentHash := h, chunkIndex := i,
                 chunkText := t, embedding := embedText t }]
  | ChunkOp.delete d h i =>
      rows.filter (fun r => !(r.documentId == d && r.contentHash == h
        && r.chunkIndex == i))

/-- A chunk operation batch applied in order. -/
def applyChunkOps (rows : List DocumentEmbeddingRow) (ops : List ChunkOp) :
    List DocumentEmbeddingRow :=
  ops.foldl applyChunkOp rows

/-- The number of embedding-provider calls an op batch performs: one per
insert. -/
def embeddingCalls (ops : List ChunkOp) : Nat := ops.countP isInsertOp

/-! ## Relational store state and the Coordinator's mutations

The row shapes and uniqueness constraints come from the DDL; the
operations are modelled from the specification (§3 lifecycle, §4.1, §4.2,
§4.5), which is not implemented in the repository sources. -/

/-- The relational store state: the four tables the synchronizer core
touches, rows in insertion order. -/
structure Store where
  documents : List DocumentRow
  versions : List DocumentVersionRow
  changes : List DocumentChangeRow
  embeddings : List DocumentEmbeddingRow
  deriving DecidableEq, Repr

/-- The empty relational store. -/
def initStore : Store :=
  { documents := [], versions := [], changes := [], embeddings := [] }

/-- The version rows of one document, in insertion order. -/
def versionsOf (s : Store) (docId : String) : List DocumentVersionRow :=
  s.versions.filter (fun v => v.documentId == docId)

/-- The change rows of one document, in insertion order. -/
def changesOf (s : Store) (docId : String) : List DocumentChangeRow :=
  s.changes.filter (fun c => c.documentId == docId)

/-- Look up the live document row by id. -/
def findDocument (s : Store) (docId : String) : Option DocumentRow :=
  s.documents.find? (fun d => d.id == docId)

/-- Modelled from the spec: the Version Ledger's read of the latest
version number, 0 if none (§4.1) — the maximum stored version number of
the document. -/
def latestVersionNumber (s : Store) (docId : String) : Nat :=
  (versionsOf s docId).foldl (fun m v => max m v.versionNumber) 0

/-- Whether a version row with the given (document_id, version_number)
key exists — the key of the DDL's UNIQUE(document_id, version_number)
constraint (line 106). -/
def hasVersion (s : Store) (docId : String) (n : Nat) : Bool :=
  s.versions.any (fun v => v.documentId == docId && v.versionNumber == n)

/-- The error kinds of the relational commit (§7). -/
inductive CommitError
  | VersionConflict
  | ValidationError
  deriving DecidableEq, Repr

/-- The payload of a `commitVersion` call (§4.1). -/
structure CommitPayload where
  newTitle : String
  newContent : String
  newMetadata : String
  author : String
  summary : String
  deriving DecidableEq, Repr

/-- The snapshot row a commit persists. -/
def mkVersionRow (docId : String) (n : Nat) (p : CommitPayload) :
    DocumentVersionRow :=
  { documentId := docId, versionNumber := n, title := p.newTitle,
    content := p.newContent, metadata := p.newMetadata,
    authorId := p.author, changeSummary := p.summary }

/-- Modelled from the spec: the Change Recorder `deriveChanges` (§4.2) — a
single created record when there is no previous version, a single deleted
record when the new status is deleted, otherwise one field-level record
per changed field over the snapshot fields stored by `document_versions`
(title, content, metadata). -/
def deriveChanges (docId : String) (n : Nat) (author : String)
    (oldV : Option DocumentVersionRow)
    (newTitle newContent newMetadata : String)
    (newStatus : DocumentStatus) : List DocumentChangeRow :=
  match oldV with
  | none =>
      [{ documentId := docId, versionNumber := n,
         changeType := ChangeType.created, fieldName := none,
         oldValue := none, newValue := some newContent, authorId := author }]
  | some o =>
      if newStatus == DocumentStatus.deleted then
        [{ documentId := docId, versionNumber := n,
           changeType := ChangeType.deleted, fieldName := none,
           oldValue := none, newValue := none, authorId := author }]
      else
        (if o.title == newTitle then [] else
          [{ documentId := docId, versionNumber := n,
             changeType := ChangeType.updated, fieldName := some "title",
             oldValue := some o.title, newValue := some newTitle,
             authorId := author }])
        ++ (if o.content == newContent then [] else
          [{ documentId := docId, versionNumber := n,
             changeType := ChangeType.updated, fieldName := some "content",
             oldValue := some o.content, newValue := some newContent,
             authorId := author }])
        ++ (if o.metadata == newMetadata then [] else
          [{ documentId := docId, versionNumber := n,
             changeType := ChangeType.updated, fieldName := some "metadata",
             oldValue := some o.metadata, newValue := some newMetadata,
             authorId := author }])

/-- Apply an id-preserving row update to the rows matching a document id. -/
def mapDocRow (f : DocumentRow → DocumentRow) (docs : List DocumentRow)
    (docId : String) : List DocumentRow :=
  docs.map (fun d => if d.id == docId then f d else d)

/-- Update of the live document row after a commit (§4.1: the live
Document row is updated to match the new snapshot; status unchanged). -/
def updateLiveRow (docs : List DocumentRow) (docId : String)
    (p : CommitPayload) : List DocumentRow :=
  mapDocRow
    (fun d =>
      { d with
          title := p.newTitle
          content := p.newContent
          metadata := p.newMetadata })
    docs docId

/-- Modelled from the spec: the Version Ledger commit (§4.1) given the
latest version number it read — validates that the document exists and is
not deleted, computes new version = latest + 1, enforces the DDL's
UNIQUE(document_id, version_number) constraint (a duplicate insert fails
with VersionConflict), persists the snapshot and the derived change
records atomically, and updates the live Document row to match. -/
def commitGivenLatest (s : Store) (docId : String) (latest : Nat)
    (p : CommitPayload) : Except CommitError Store :=
  match findDocument s docId with
  | none => Except.error CommitError.ValidationError
  | some d =>
    if d.status == DocumentStatus.deleted then
      Except.error CommitError.ValidationError
    else if hasVersion s docId (latest + 1) then
      Except.error CommitError.VersionConflict
    else
      Except.ok
        { documents := updateLiveRow s.documents docId p,
          versions := s.versions ++ [mkVersionRow docId (latest + 1) p],
          changes := s.changes ++ deriveChanges docId (latest + 1) p.author
            ((versionsOf s docId).getLast?) p.newTitle p.newContent
            p.newMetadata d.status,
          embeddings := s.embeddings }

/-- Modelled from the spec: `commitVersion` (§4.1) — read the latest
version number, then commit atomically with respect to it. -/
def commitVersion (s : Store) (docId : String) (p : CommitPayload) :
    Except CommitError Store :=
  commitGivenLatest s docId (latestVersionNumber s docId) p

/-- Modelled from the spec: the document-creation lifecycle (§3) — insert
the Document row, the first DocumentVersion (number 1), a single created
ChangeRecord, and the initial embedding chunks; a duplicate id is
rejected unchanged. -/
def createDocument (s : Store) (docId title content metadata author : String) :
    Store :=
  match findDocument s docId with
  | some _ => s
  | none =>
    { documents := s.documents ++
        [{ id := docId, title := title, content := content,
           status := DocumentStatus.draft, metadata := metadata }],
      versions := s.versions ++
        [{ documentId := docId, versionNumber := 1, title := title,
           content := content, metadata := metadata, authorId := author,
           changeSummary := "created" }],
      changes := s.changes ++
        [{ documentId := docId, versionNumber := 1,
           changeType := ChangeType.created, fieldName := none,
           oldValue := none, newValue := some content, authorId := author }],
      embeddings := applyChunkOps s.embeddings
        (reconcileChunks s.embeddings docId content) }

/-- Modelled from the spec: the Consistency Coordinator's edit pipeline
(§4.5) — the relational commit must succeed first (otherwise the mutation
is rejected and the state is unchanged), then the chunk set is
reconciled. -/
def editDocument (s : Store) (docId : String) (p : CommitPayload) : Store :=
  match commitVersion s docId p with
  | Except.error _ => s
  | Except.ok s1 =>
    { s1 with
        embeddings := applyChunkOps s1.embeddings
          (reconcileChunks s1.embeddings docId p.newContent) }

/-- Modelled from the spec: soft delete (§3 lifecycle) — the document's
status is set to deleted and a single deleted audit record is appended;
versions, change history and chunks are retained. -/
def softDeleteDocument (s : Store) (docId author : String) : Store :=
  match findDocument s docId with
  | none => s
  | some _ =>
    { documents := mapDocRow
        (fun d => { d with status := DocumentStatus.deleted })
        s.documents docId,
      versions := s.versions,
      changes := s.changes ++
        [{ documentId := docId,
           versionNumber := latestVersionNumber s docId,
           changeType := ChangeType.deleted, fieldName := none,
           oldValue := none, newValue := none, authorId := author }],
      embeddings := s.embeddings }

/-- Modelled from the spec: the retry of a failed embedding
reconciliation (§4.5, §5) — re-derives the chunk set from the live
relational content. -/
def retrySync (s : Store) (docId : String) : Store :=
  match findDocument s docId with
  | none => s
  | some d =>
    { s with
        embeddings := applyChunkOps s.embeddings
          (reconcileChunks s.embeddings docId d.content) }

/-- Modelled from the spec: the document mutations the Consistency
Coordinator accepts (§3 lifecycle, §4.5). -/
inductive Op
  | create (docId title content metadata author : String)
  | edit (docId : String) (p : CommitPayload)
  | softDelete (docId author : String)
  | retry (docId : String)
  deriving Repr

/-- One Coordinator mutation; a rejected mutation leaves the state
unchanged. -/
def applyOp (s : Store) : Op → Store
  | Op.create docId title content metadata author =>
      createDocument s docId title content metadata author
  | Op.edit docId p => editDocument s docId p
  | Op.softDelete docId author => softDeleteDocument s docId author
  | Op.retry docId => retrySync s docId

/-- A sequence of Coordinator mutations applied in order. -/
def applyOps (s : Store) (ops : List Op) : Store := ops.foldl applyOp s

/-- One step of replaying the change log: a created record restores the
recorded content, an updated record on the content field applies its new
value, and every other record leaves the content unchanged. -/
def replayStep (c : String) (r : DocumentChangeRow) : String :=
  match r.changeType with
  | ChangeType.created => r.newValue.getD c
  | ChangeType.updated =>
      if r.fieldName == some "content" then r.newValue.getD c else c
  | ChangeType.deleted => c
  | ChangeType.restored => c

/-- Replaying an ordered change log from the beginning. -/
def replayContent (recs : List DocumentChangeRow) : String :=
  recs.foldl replayStep ""

/-- The per-document ledger invariant: version numbers are 1..n in
insertion order, the latest snapshot's content matches the live row's,
the change log replays to the latest content, and a document absent from
the documents table has no versions or changes. -/
def DocOk (s : Store) (docId : String) : Prop :=
  (versionsOf s docId).map (fun v => v.versionNumber)
      = List.range' 1 (versionsOf s docId).length
  ∧ ((versionsOf s docId).getLast?).map (fun v => v.content)
      = (findDocument s docId).map (fun d => d.content)
  ∧ replayContent (changesOf s docId)
      = ((((versionsOf s docId).getLast?).map (fun v => v.content)).getD "")
  ∧ (findDocument s docId = none →
      versionsOf s docId = [] ∧ changesOf s docId = [])

end VKS

namespace VKS

/-- C10: the relational connection pool never takes its database name from
the POSTGRES_DB environment variable: the option key is spelled `databse`,
so for every value of POSTGRES_DB the `database` option is absent and the
pool connects to the pg driver's default database. -/
theorem pool_ignores_postgres_db :
    ∀ envHost envDb envUser envPassword driverDefault,
      lookupOpt (poolConfig envHost envDb envUser envPassword) "database" = none
      ∧ effectiveDatabase (poolConfig envHost envDb envUser envPassword)
          driverDefault = driverDefault := by
  intro envHost envDb envUser envPassword driverDefault
  constructor
  · simp [lookupOpt, poolConfig, List.find?]
  · simp [effectiveDatabase, lookupOpt, poolConfig, List.find?]

/-- C9 counterexample: the schema accepts and stores an insight whose
confidence score is 2.50, which lies outside the interval [0,1] (in
hundredths: 0 ≤ v ≤ 100 fails). -/
theorem insight_confidence_out_of_range :
    insertInsight []
        { documentId := "doc-1", insightType := "summary",
          content := "text", confidenceScoreHundredths := 250 }
      = some [{ documentId := "doc-1", insightType := "summary",
                content := "text", confidenceScoreHundredths := 250 }]
    ∧ ¬ ((0 : Int) ≤ 250 ∧ (250 : Int) ≤ 100) := by
  constructor
  · rfl
  · decide

/-- C9 amended: every insert or update accepted by the schema has a
confidence score in the `DECIMAL(3,2)` range [-9.99, 9.99] (hundredths
between -999 and 999); the interval [0,1] is not enforced. -/
theorem insight_confidence_decimal_range :
    (∀ rows r out, insertInsight rows r = some out →
        -999 ≤ r.confidenceScoreHundredths ∧ r.confidenceScoreHundredths ≤ 999)
    ∧ (∀ rows i v out, updateInsightConfidence rows i v = some out →
        -999 ≤ v ∧ v ≤ 999) := by
  constructor
  · intro rows r out h
    by_cases hd : decimal_3_2_Ok r.confidenceScoreHundredths
    · have := hd
      simp only [decimal_3_2_Ok, Bool.and_eq_true, decide_eq_true_eq] at this
      exact this
    · simp [insertInsight, hd] at h
  · intro rows i v out h
    by_cases hd : decimal_3_2_Ok v
    · have := hd
      simp only [decimal_3_2_Ok, Bool.and_eq_true, decide_eq_true_eq] at this
      exact this
    · simp [updateInsightConfidence, hd] at h

/-- Witness for `insight_confidence_decimal_range`: a concrete accepted
insert with score 0.75 lies in the `DECIMAL(3,2)` range. -/
theorem insight_confidence_decimal_range_witness :
    insertInsight []
        { documentId := "d", insightType := "suggestion",
          content := "c", confidenceScoreHundredths := 75 }
      = some [{ documentId := "d", insightType := "suggestion",
                content := "c", confidenceScoreHundredths := 75 }]
    ∧ (-999 ≤ (75 : Int) ∧ (75 : Int) ≤ 999) := by
  refine ⟨by rfl, ?_⟩
  exact insight_confidence_decimal_range.1 []
    { documentId := "d", insightType := "suggestion",
      content := "c", confidenceScoreHundredths := 75 }
    [{ documentId := "d", insightType := "suggestion",
       content := "c", confidenceScoreHundredths := 75 }] (by rfl)

/-! ## Graph query theorems -/

theorem containsFromDocument_of_mem_matches {g : Graph}
    {p : GraphNode × GraphNode} (h : p ∈ gapQueryMatches g) :
    containsFromDocument g p.2.id = true := by
  rcases List.mem_filterMap.mp h with ⟨e, he, hf⟩
  split at hf
  case isTrue hrel =>
    split at hf
    case h_1 d c hd hc =>
      cases hf
      have hdmem := List.mem_of_find?_eq_some hd
      have hdprop := List.find?_some hd
      have hcprop := List.find?_some hc
      simp only [Bool.and_eq_true, beq_iff_eq] at hdprop hcprop hrel
      simp only [containsFromDocument, List.any_eq_true, Bool.and_eq_true,
        beq_iff_eq]
      exact ⟨e, he, ⟨hrel, hcprop.1.symm⟩, d, hdmem, hdprop.1, hdprop.2⟩
    case h_2 hne => exact absurd hf (by simp)
  case isFalse hrel => exact absurd hf (by simp)

theorem gapQuery_eq_nil (g : Graph) : gapQuery g = [] := by
  have hfil : gapQueryFiltered g = [] := by
    refine List.filter_eq_nil_iff.mpr ?_
    intro p hp
    simp [containsFromDocument_of_mem_matches hp]
  simp only [gapQuery, hfil]
  rfl

/-- C4 (code bug): the knowledge-gaps example query filters with the same
CONTAINS relation it matches on, so it returns the empty list on every
graph; on a graph where the concept "Alpha" has one incoming CONTAINS edge
from the document "Doc One" and no is-about edges, the claim (and the
spec-modelled gap detection) requires `[("Alpha", ["Doc One"])]`, but the
query returns `[]`. -/
theorem gap_detection_code_bug :
    gapQuery gapExampleGraph = []
    ∧ specGapConcepts gapExampleGraph = [("Alpha", ["Doc One"])]
    ∧ (∀ g : Graph, gapQuery g = []) :=
  ⟨gapQuery_eq_nil gapExampleGraph, by rfl, gapQuery_eq_nil⟩

/-- C5 counterexample: on a graph holding two orphan documents titled
"bravo" then "alpha" in store order, the orphan query returns them in
store order, which is not ordered by title — refuting the ordered-by-title
part of the claim. -/
theorem orphan_query_not_title_ordered :
    orphanQuery orphanExampleGraph = [("bravo", "b"), ("alpha", "a")]
    ∧ titleOrdered (orphanQuery orphanExampleGraph) = false := by
  exact ⟨by rfl, by rfl⟩

/-- C5 amended: the orphan query returns exactly those documents with zero
incoming REFERENCES edges from document nodes, as (title, slug) pairs in
store order; the result is not sorted by title. -/
theorem orphan_query_membership :
    ∀ (g : Graph) (t sl : String),
      (t, sl) ∈ orphanQuery g ↔
        ∃ n, n ∈ g.nodes ∧ n.kind = NodeKind.document ∧ n.title = t
          ∧ n.slug = sl
          ∧ ¬ ∃ e, e ∈ g.edges ∧ e.rel = EdgeType.REFERENCES ∧ e.dst = n.id
              ∧ ∃ m, m ∈ g.nodes ∧ m.id = e.src
                  ∧ m.kind = NodeKind.document := by
  intro g t sl
  constructor
  · intro h
    rcases List.mem_map.mp h with ⟨n, hn, hpair⟩
    rcases List.mem_filter.mp hn with ⟨hmem, hprop⟩
    simp only [Bool.and_eq_true, beq_iff_eq, Bool.not_eq_true'] at hprop
    rcases hprop with ⟨hkind, hnoref⟩
    cases hpair
    refine ⟨n, hmem, hkind, rfl, rfl, ?_⟩
    rintro ⟨e, he, hrel, hdst, m, hm, hmid, hmkind⟩
    rw [List.any_eq_false] at hnoref
    apply hnoref e he
    simp only [Bool.and_eq_true, beq_iff_eq, List.any_eq_true]
    exact ⟨⟨hrel, hdst⟩, m, hm, hmid, hmkind⟩
  · rintro ⟨n, hmem, hkind, ht, hsl, hnoref⟩
    refine List.mem_map.mpr ⟨n, List.mem_filter.mpr ⟨hmem, ?_⟩, by rw [ht, hsl]⟩
    simp only [Bool.and_eq_true, beq_iff_eq, Bool.not_eq_true',
      List.any_eq_false]
    refine ⟨hkind, ?_⟩
    intro e he
    intro hc
    simp only [Bool.and_eq_true, beq_iff_eq, List.any_eq_true] at hc
    rcases hc with ⟨⟨hrel, hdst⟩, m, hm, hmid, hmkind⟩
    exact hnoref ⟨e, he, hrel, hdst, m, hm, hmid, hmkind⟩

/-! ## Graph synchronizer VERSION_OF theorems -/

theorem applyGraphOp_no_versionOf {g : Graph} (op : GraphOp)
    (h : ∀ e ∈ g.edges, e.rel ≠ EdgeType.VERSION_OF) :
    ∀ e ∈ (applyGraphOp g op).edges, e.rel ≠ EdgeType.VERSION_OF := by
  cases op <;> intro e he
  case upsertDocumentNode d t sl =>
    simp only [applyGraphOp, upsertNode] at he
    split at he <;> exact h e he
  case upsertConceptNode c nm =>
    simp only [applyGraphOp, upsertNode] at he
    split at he <;> exact h e he
  case upsertContainsEdge d c =>
    simp only [applyGraphOp, upsertEdge] at he
    split at he
    · exact h e he
    · rcases List.mem_append.mp he with h1 | h2
      · exact h e h1
      · simp only [List.mem_singleton] at h2
        subst h2; simp
  case upsertReferencesEdge a b =>
    simp only [applyGraphOp, upsertEdge] at he
    split at he
    · exact h e he
    · rcases List.mem_append.mp he with h1 | h2
      · exact h e h1
      · simp only [List.mem_singleton] at h2
        subst h2; simp
  case removeContainsEdge d c =>
    simp only [applyGraphOp, deleteEdge] at he
    exact h e (List.mem_of_mem_filter he)
  case removeReferencesEdge a b =>
    simp only [applyGraphOp, deleteEdge] at he
    exact h e (List.mem_of_mem_filter he)
  case detachNode nodeId =>
    simp only [applyGraphOp] at he
    exact h e (List.mem_of_mem_filter he)

theorem applyGraphOps_no_versionOf :
    ∀ (ops : List GraphOp) (g : Graph),
      (∀ e ∈ g.edges, e.rel ≠ EdgeType.VERSION_OF) →
      ∀ e ∈ (applyGraphOps g ops).edges, e.rel ≠ EdgeType.VERSION_OF := by
  intro ops
  induction ops with
  | nil => intro g h; simpa [applyGraphOps] using h
  | cons op rest ih =>
    intro g h
    have hstep := applyGraphOp_no_versionOf op h
    simpa [applyGraphOps] using ih (applyGraphOp g op) hstep

/-- C6: no operation of the synchronizer ever creates a VERSION_OF edge —
in every graph-store state reachable from the initial state by synchronizer
operations, the set of VERSION_OF edges is empty. -/
theorem no_version_of_edges :
    ∀ ops : List GraphOp,
      (applyGraphOps initGraph ops).edges.filter
        (fun e => e.rel == EdgeType.VERSION_OF) = [] := by
  intro ops
  refine List.filter_eq_nil_iff.mpr ?_
  intro e he
  have hinit : ∀ e ∈ initGraph.edges, e.rel ≠ EdgeType.VERSION_OF := by
    decide
  have := applyGraphOps_no_versionOf ops initGraph hinit e he
  simpa using this

/-! ## Chunk reconciliation theorems -/

theorem hasChunk_iff {rows : List DocumentEmbeddingRow} {docId : String}
    {h i : Nat} :
    hasChunk rows docId h i = true ↔
      ∃ r ∈ rows, r.documentId = docId ∧ r.contentHash = h
        ∧ r.chunkIndex = i := by
  simp [hasChunk, List.any_eq_true, Bool.and_eq_true, beq_iff_eq, and_assoc]

theorem planPairs_no_delete (rows : List DocumentEmbeddingRow)
    (docId : String) :
    ∀ (pairs : List (Nat × String)) (op : ChunkOp),
      op ∈ planPairs rows docId pairs → isDeleteOp op = false := by
  intro pairs
  induction pairs with
  | nil => intro op hop; simp [planPairs] at hop
  | cons p rest ih =>
    intro op hop
    rcases p with ⟨i, t⟩
    rcases List.mem_cons.mp hop with h1 | h2
    · subst h1
      by_cases hc : hasChunk rows docId (contentHash t) i
      · simp [planPairs, hc, isDeleteOp]
      · simp [planPairs, hc, isDeleteOp]
    · exact ih op h2

theorem mem_applyChunkOps_of_no_delete :
    ∀ (ops : List ChunkOp) (rows : List DocumentEmbeddingRow)
      (r : DocumentEmbeddingRow),
      (∀ op ∈ ops, isDeleteOp op = false) → r ∈ rows →
      r ∈ applyChunkOps rows ops := by
  intro ops
  induction ops with
  | nil => intro rows r _ hr; simpa [applyChunkOps] using hr
  | cons op rest ih =>
    intro rows r hops hr
    have hrest : ∀ op2 ∈ rest, isDeleteOp op2 = false :=
      fun op2 h2 => hops op2 (List.mem_cons_of_mem op h2)
    have hr2 : r ∈ applyChunkOp rows op := by
      cases op with
      | keep d h2 i2 => simpa [applyChunkOp] using hr
      | insert d h2 i2 t => exact List.mem_append_left _ hr
      | delete d h2 i2 =>
        have := hops (ChunkOp.delete d h2 i2) (List.mem_cons_self _ _)
        simp [isDeleteOp] at this
    simpa [applyChunkOps] using ih (applyChunkOp rows op) r hrest hr2

theorem hasChunk_plan :
    ∀ (pairs : List (Nat × String)) (rows base : List DocumentEmbeddingRow)
      (docId : String),
      (∀ r ∈ rows, r ∈ base) →
      ∀ i t, (i, t) ∈ pairs →
        hasChunk (applyChunkOps base (planPairs rows docId pairs)) docId
          (contentHash t) i = true := by
  intro pairs
  induction pairs with
  | nil => intro rows base docId _ i t h; simp at h
  | cons p rest ih =>
    intro rows base docId hsub i t hmem
    rcases p with ⟨j, u⟩
    have hstep : applyChunkOps base (planPairs rows docId ((j, u) :: rest))
        = applyChunkOps
            (applyChunkOp base
              (if hasChunk rows docId (contentHash u) j then
                ChunkOp.keep docId (contentHash u) j
              else ChunkOp.insert docId (contentHash u) j u))
            (planPairs rows docId rest) := by
      simp [planPairs, applyChunkOps]
    rcases List.mem_cons.mp hmem with h1 | h2
    · rw [Prod.mk.injEq] at h1
      obtain ⟨rfl, rfl⟩ := h1
      have hbase2 : hasChunk
          (applyChunkOp base
            (if hasChunk rows docId (contentHash t) i then
              ChunkOp.keep docId (contentHash t) i
            else ChunkOp.insert docId (contentHash t) i t)) docId
          (contentHash t) i = true := by
        by_cases hc : hasChunk rows docId (contentHash t) i = true
        · rcases hasChunk_iff.mp hc with ⟨r, hr, hd, hh, hi⟩
          simp only [hc, if_true, applyChunkOp]
          exact hasChunk_iff.mpr ⟨r, hsub r hr, hd, hh, hi⟩
        · simp only [hc, if_false, applyChunkOp]
          exact hasChunk_iff.mpr
            ⟨{ documentId := docId, contentHash := contentHash t,
               chunkIndex := i, chunkText := t, embedding := embedText t },
             List.mem_append_right _ (by simp), rfl, rfl, rfl⟩
      rw [hstep]
      rcases hasChunk_iff.mp hbase2 with ⟨r, hr, hd, hh, hi⟩
      refine hasChunk_iff.mpr ⟨r, ?_, hd, hh, hi⟩
      exact mem_applyChunkOps_of_no_delete _ _ r
        (planPairs_no_delete rows docId rest) hr
    · rw [hstep]
      refine ih rows _ docId ?_ i t h2
      intro r hr
      have hrbase := hsub r hr
      by_cases hc : hasChunk rows docId (contentHash u) j = true
      · simpa [hc, applyChunkOp] using hrbase
      · simp only [hc, if_false, applyChunkOp]
        exact List.mem_append_left _ hrbase

theorem hasChunk_deletes :
    ∀ (dels : List ChunkOp) (base : List DocumentEmbeddingRow)
      (docId : String) (np : List (Nat × Nat)) (h i : Nat),
      (∀ op ∈ dels, ∃ d2 h2 i2, op = ChunkOp.delete d2 h2 i2
        ∧ pairMem np h2 i2 = false) →
      pairMem np h i = true →
      hasChunk base docId h i = true →
      hasChunk (applyChunkOps base dels) docId h i = true := by
  intro dels
  induction dels with
  | nil => intro base docId np h i _ _ hbase; simpa [applyChunkOps] using hbase
  | cons op rest ih =>
    intro base docId np h i hdel hpair hbase
    rcases hdel op (List.mem_cons_self _ _) with ⟨d2, h2, i2, rfl, hnp2⟩
    have hrest : ∀ op2 ∈ rest, ∃ d3 h3 i3, op2 = ChunkOp.delete d3 h3 i3
        ∧ pairMem np h3 i3 = false :=
      fun op2 hm => hdel op2 (List.mem_cons_of_mem _ hm)
    rcases hasChunk_iff.mp hbase with ⟨r, hr, hd, hh, hi⟩
    have hpredfalse : (r.documentId == d2 && r.contentHash == h2
        && r.chunkIndex == i2) = false := by
      rcases Bool.eq_false_or_eq_true (r.documentId == d2
        && r.contentHash == h2 && r.chunkIndex == i2) with hT | hF
      · exfalso
        simp only [Bool.and_eq_true, beq_iff_eq] at hT
        rcases hT with ⟨⟨_, hh2⟩, hi2⟩
        rw [hh] at hh2
        rw [hi] at hi2
        rw [← hh2, ← hi2] at hnp2
        rw [hpair] at hnp2
        simp at hnp2
      · exact hF
    have hsurv : r ∈ applyChunkOp base (ChunkOp.delete d2 h2 i2) := by
      simp only [applyChunkOp]
      exact List.mem_filter.mpr ⟨hr, by simp [hpredfalse]⟩
    have hbase2 : hasChunk (applyChunkOp base (ChunkOp.delete d2 h2 i2))
        docId h i = true :=
      hasChunk_iff.mpr ⟨r, hsurv, hd, hh, hi⟩
    simpa [applyChunkOps] using
      ih (applyChunkOp base (ChunkOp.delete d2 h2 i2)) docId np h i hrest
        hpair hbase2

theorem reconcile_deletes_spec (rows : List DocumentEmbeddingRow)
    (docId content : String) :
    ∀ op ∈ (rows.filter (fun r => r.documentId == docId
        && !(pairMem (newPairs content) r.contentHash r.chunkIndex))).map
        (fun r => ChunkOp.delete docId r.contentHash r.chunkIndex),
      ∃ d2 h2 i2, op = ChunkOp.delete d2 h2 i2
        ∧ pairMem (newPairs content) h2 i2 = false := by
  intro op hop
  rcases List.mem_map.mp hop with ⟨r, hr, rfl⟩
  rcases List.mem_filter.mp hr with ⟨_, hprop⟩
  rw [Bool.and_eq_true] at hprop
  rcases hprop with ⟨_, hnp⟩
  rw [Bool.not_eq_true'] at hnp
  exact ⟨docId, r.contentHash, r.chunkIndex, rfl, hnp⟩

theorem planPairs_all_keep :
    ∀ (pairs : List (Nat × String)) (rows : List DocumentEmbeddingRow)
      (docId : String),
      (∀ i t, (i, t) ∈ pairs → hasChunk rows docId (contentHash t) i = true) →
      planPairs rows docId pairs
        = pairs.map (fun p => ChunkOp.keep docId (contentHash p.2) p.1) := by
  intro pairs
  induction pairs with
  | nil => intro rows docId _; simp [planPairs]
  | cons p rest ih =>
    intro rows docId hall
    rcases p with ⟨i, t⟩
    have hc := hall i t (List.mem_cons_self _ _)
    have hrest : ∀ j u, (j, u) ∈ rest →
        hasChunk rows docId (contentHash u) j = true :=
      fun j u hm => hall j u (List.mem_cons_of_mem _ hm)
    simp [planPairs, hc, ih rows docId hrest]

theorem countP_isInsert_keepmap (docId : String) :
    ∀ l : List (Nat × String),
      (l.map (fun p => ChunkOp.keep docId (contentHash p.2) p.1)).countP
        isInsertOp = 0 := by
  intro l
  induction l with
  | nil => rfl
  | cons a l ih => simp [List.countP_cons, isInsertOp, ih]

theorem countP_isKeep_keepmap (docId : String) :
    ∀ l : List (Nat × String),
      (l.map (fun p => ChunkOp.keep docId (contentHash p.2) p.1)).countP
        isKeepOp = l.length := by
  intro l
  induction l with
  | nil => rfl
  | cons a l ih => simp [List.countP_cons, isKeepOp, ih]

theorem countP_isInsert_delmap (docId : String) :
    ∀ l : List DocumentEmbeddingRow,
      (l.map (fun r => ChunkOp.delete docId r.contentHash
        r.chunkIndex)).countP isInsertOp = 0 := by
  intro l
  induction l with
  | nil => rfl
  | cons a l ih => simp [List.countP_cons, isInsertOp, ih]

theorem countP_isKeep_delmap (docId : String) :
    ∀ l : List DocumentEmbeddingRow,
      (l.map (fun r => ChunkOp.delete docId r.contentHash
        r.chunkIndex)).countP isKeepOp = 0 := by
  intro l
  induction l with
  | nil => rfl
  | cons a l ih => simp [List.countP_cons, isKeepOp, ih]

/-- C3: reconcileChunks is idempotent with respect to embedding-provider
calls — after applying the operations of a first reconciliation, a second
reconciliation with the identical content performs zero embedding-provider
calls and marks every chunk of the decomposition keep. -/
theorem reconcileChunks_idempotent :
    ∀ (rows : List DocumentEmbeddingRow) (docId content : String),
      embeddingCalls (reconcileChunks
          (applyChunkOps rows (reconcileChunks rows docId content))
          docId content) = 0
      ∧ (reconcileChunks
          (applyChunkOps rows (reconcileChunks rows docId content))
          docId content).countP isKeepOp = (chunksOf content).length := by
  intro rows docId content
  have hall : ∀ i t, (i, t) ∈ (chunksOf content).enum →
      hasChunk (applyChunkOps rows (reconcileChunks rows docId content))
        docId (contentHash t) i = true := by
    intro i t hmem
    have hsplit : applyChunkOps rows (reconcileChunks rows docId content)
        = applyChunkOps
            (applyChunkOps rows (planPairs rows docId (chunksOf content).enum))
            ((rows.filter (fun r => r.documentId == docId
                && !(pairMem (newPairs content) r.contentHash
                      r.chunkIndex))).map
              (fun r => ChunkOp.delete docId r.contentHash r.chunkIndex)) := by
      simp [reconcileChunks, applyChunkOps]
    rw [hsplit]
    have hplan := hasChunk_plan (chunksOf content).enum rows rows docId
      (fun r hr => hr) i t hmem
    have hpair : pairMem (newPairs content) (contentHash t) i = true := by
      have : (contentHash t, i) ∈ newPairs content :=
        List.mem_map.mpr ⟨(i, t), hmem, rfl⟩
      simp only [pairMem, List.any_eq_true]
      exact ⟨(contentHash t, i), this, by simp⟩
    exact hasChunk_deletes _ _ docId (newPairs content) (contentHash t) i
      (reconcile_deletes_spec rows docId content) hpair hplan
  have hkeep := planPairs_all_keep (chunksOf content).enum
    (applyChunkOps rows (reconcileChunks rows docId content)) docId hall
  simp only [reconcileChunks] at hkeep
  constructor
  · simp only [embeddingCalls, reconcileChunks, List.countP_append]
    rw [hkeep, countP_isInsert_keepmap docId, countP_isInsert_delmap docId]
  · simp only [reconcileChunks, List.countP_append]
    rw [hkeep, countP_isKeep_keepmap docId, countP_isKeep_delmap docId,
      List.enum_length]
    exact Nat.add_zero _

/-! ## Version ledger and change log: supporting lemmas -/

theorem find?_append_none {α : Type} {p : α → Bool} {l1 l2 : List α}
    (h : l1.find? p = none) : (l1 ++ l2).find? p = l2.find? p := by
  rw [List.find?_append, h, Option.none_or]

theorem find?_append_some {α : Type} {p : α → Bool} {l1 l2 : List α} {a : α}
    (h : l1.find? p = some a) : (l1 ++ l2).find? p = some a := by
  rw [List.find?_append, h, Option.or_some]

theorem find?_mapDocRow (f : DocumentRow → DocumentRow)
    (hf : ∀ d, (f d).id = d.id) (docs : List DocumentRow)
    (eid docId : String) :
    (mapDocRow f docs eid).find? (fun d => d.id == docId)
      = if (eid == docId) = true
        then (docs.find? (fun d => d.id == docId)).map f
        else docs.find? (fun d => d.id == docId) := by
  induction docs with
  | nil => by_cases heq : (eid == docId) = true <;> simp [mapDocRow, heq]
  | cons d rest ih =>
    simp only [mapDocRow, List.map_cons] at ih ⊢
    by_cases hd : (d.id == eid) = true
    · by_cases hp : (d.id == docId) = true
      · have heq : (eid == docId) = true := by
          rw [beq_iff_eq] at hd hp ⊢
          rw [← hd, hp]
        have hpf : ((fun d => d.id == docId) (f d)) = true := by
          simp only [hf d]; exact hp
        rw [if_pos hd,
          @List.find?_cons_of_pos _ (fun d => d.id == docId) (f d) _ hpf,
          @List.find?_cons_of_pos _ (fun d => d.id == docId) d _ hp,
          if_pos heq]
        rfl
      · have heq : (eid == docId) = false := by
          rcases Bool.eq_false_or_eq_true (eid == docId) with hT | hF
          · exfalso
            rw [beq_iff_eq] at hd hT
            exact hp (by rw [beq_iff_eq, hd, hT])
          · exact hF
        have hpf : ¬ ((fun d => d.id == docId) (f d)) = true := by
          simp only [hf d]; exact hp
        rw [if_pos hd,
          @List.find?_cons_of_neg _ (fun d => d.id == docId) (f d) _ hpf,
          @List.find?_cons_of_neg _ (fun d => d.id == docId) d _ hp, ih,
          if_neg (by rw [heq]; exact Bool.false_ne_true)]
    · have hfd : (if (d.id == eid) = true then f d else d) = d := if_neg hd
      rw [hfd]
      by_cases hp : (d.id == docId) = true
      · have heq : (eid == docId) = false := by
          rcases Bool.eq_false_or_eq_true (eid == docId) with hT | hF
          · exfalso
            rw [beq_iff_eq] at hp hT
            exact hd (by rw [beq_iff_eq, hp, hT])
          · exact hF
        rw [@List.find?_cons_of_pos _ (fun d => d.id == docId) d _ hp,
          @List.find?_cons_of_pos _ (fun d => d.id == docId) d _ hp,
          if_neg (by rw [heq]; exact Bool.false_ne_true)]
      · rw [@List.find?_cons_of_neg _ (fun d => d.id == docId) d _ hp,
          @List.find?_cons_of_neg _ (fun d => d.id == docId) d _ hp, ih]

theorem foldl_max_eq_of_range (l : List DocumentVersionRow) :
    ∀ (a n : Nat), l.map (fun v => v.versionNumber) = List.range' (a + 1) n →
      l.foldl (fun m v => max m v.versionNumber) a = a + n := by
  induction l with
  | nil =>
    intro a n h
    simp only [List.map_nil] at h
    have : n = 0 := by
      cases n with
      | zero => rfl
      | succ k => rw [List.range'_succ] at h; cases h
    simp [this]
  | cons v rest ih =>
    intro a n h
    cases n with
    | zero => simp [List.range'] at h
    | succ k =>
      rw [List.range'_succ] at h
      simp only [List.map_cons, List.cons.injEq] at h
      rcases h with ⟨hv, hrest⟩
      simp only [List.foldl_cons]
      have hmax : max a v.versionNumber = a + 1 := by omega
      rw [hmax]
      have := ih (a + 1) k hrest
      omega

theorem latestVersionNumber_eq_length (s : Store) (docId : String)
    (h : (versionsOf s docId).map (fun v => v.versionNumber)
      = List.range' 1 (versionsOf s docId).length) :
    latestVersionNumber s docId = (versionsOf s docId).length := by
  have := foldl_max_eq_of_range (versionsOf s docId) 0
    (versionsOf s docId).length (by simpa using h)
  simpa [latestVersionNumber] using this

theorem le_foldl_max (l : List DocumentVersionRow) :
    ∀ a : Nat, a ≤ l.foldl (fun m v => max m v.versionNumber) a := by
  induction l with
  | nil => intro a; simp
  | cons v rest ih =>
    intro a
    simp only [List.foldl_cons]
    exact le_trans (Nat.le_max_left a v.versionNumber) (ih _)

theorem vnum_le_foldl_max (l : List DocumentVersionRow) :
    ∀ (a : Nat) (v : DocumentVersionRow), v ∈ l →
      v.versionNumber ≤ l.foldl (fun m w => max m w.versionNumber) a := by
  induction l with
  | nil => intro a v hv; simp at hv
  | cons w rest ih =>
    intro a v hv
    simp only [List.foldl_cons]
    rcases List.mem_cons.mp hv with h1 | h2
    · subst h1
      exact le_trans (Nat.le_max_right a v.versionNumber) (le_foldl_max rest _)
    · exact ih _ v h2

theorem hasVersion_eq_false_of_gt (s : Store) (docId : String) (m : Nat)
    (h : latestVersionNumber s docId < m) : hasVersion s docId m = false := by
  rcases Bool.eq_false_or_eq_true (hasVersion s docId m) with hT | hF
  · exfalso
    have hex : ∃ v ∈ s.versions, v.documentId = docId
        ∧ v.versionNumber = m := by
      simpa [hasVersion, List.any_eq_true, Bool.and_eq_true, beq_iff_eq]
        using hT
    rcases hex with ⟨v, hv, hd, hn⟩
    have hvin : v ∈ versionsOf s docId :=
      List.mem_filter.mpr ⟨hv, by simp [hd]⟩
    have hle := vnum_le_foldl_max (versionsOf s docId) 0 v hvin
    rw [hn] at hle
    unfold latestVersionNumber at h
    omega
  · exact hF

theorem commitGivenLatest_ok {s : Store} {docId : String} {latest : Nat}
    {p : CommitPayload} {s1 : Store}
    (h : commitGivenLatest s docId latest p = Except.ok s1) :
    ∃ d, findDocument s docId = some d
      ∧ (d.status == DocumentStatus.deleted) = false
      ∧ hasVersion s docId (latest + 1) = false
      ∧ s1 = { documents := updateLiveRow s.documents docId p,
               versions := s.versions ++ [mkVersionRow docId (latest + 1) p],
               changes := s.changes ++ deriveChanges docId (latest + 1)
                 p.author ((versionsOf s docId).getLast?) p.newTitle
                 p.newContent p.newMetadata d.status,
               embeddings := s.embeddings } := by
  unfold commitGivenLatest at h
  split at h
  · cases h
  · rename_i d heq
    split at h
    · cases h
    · split at h
      · cases h
      · rename_i hst hver
        refine ⟨d, heq, by simpa using hst, by simpa using hver, ?_⟩
        injection h with h1
        exact h1.symm

theorem createDocument_eq_of_none (s : Store) (cid t c m a : String)
    (h : findDocument s cid = none) :
    createDocument s cid t c m a
      = { documents := s.documents ++
            [{ id := cid, title := t, content := c,
               status := DocumentStatus.draft, metadata := m }],
          versions := s.versions ++
            [{ documentId := cid, versionNumber := 1, title := t,
               content := c, metadata := m, authorId := a,
               changeSummary := "created" }],
          changes := s.changes ++
            [{ documentId := cid, versionNumber := 1,
               changeType := ChangeType.created, fieldName := none,
               oldValue := none, newValue := some c, authorId := a }],
          embeddings := applyChunkOps s.embeddings
            (reconcileChunks s.embeddings cid c) } := by
  unfold createDocument
  rw [h]

theorem createDocument_eq_of_some (s : Store) (cid t c m a : String)
    (d : DocumentRow) (h : findDocument s cid = some d) :
    createDocument s cid t c m a = s := by
  unfold createDocument
  rw [h]

theorem softDelete_eq_of_none (s : Store) (docId author : String)
    (h : findDocument s docId = none) :
    softDeleteDocument s docId author = s := by
  unfold softDeleteDocument
  rw [h]

theorem softDelete_eq_of_some (s : Store) (docId author : String)
    (d : DocumentRow) (h : findDocument s docId = some d) :
    softDeleteDocument s docId author
      = { documents := mapDocRow
            (fun d => { d with status := DocumentStatus.deleted })
            s.documents docId,
          versions := s.versions,
          changes := s.changes ++
            [{ documentId := docId,
               versionNumber := latestVersionNumber s docId,
               changeType := ChangeType.deleted, fieldName := none,
               oldValue := none, newValue := none, authorId := author }],
          embeddings := s.embeddings } := by
  unfold softDeleteDocument
  rw [h]

theorem retry_eq_of_none (s : Store) (docId : String)
    (h : findDocument s docId = none) : retrySync s docId = s := by
  unfold retrySync
  rw [h]

theorem retry_eq_of_some (s : Store) (docId : String) (d : DocumentRow)
    (h : findDocument s docId = some d) :
    retrySync s docId
      = { documents := s.documents, versions := s.versions,
          changes := s.changes,
          embeddings := applyChunkOps s.embeddings
            (reconcileChunks s.embeddings docId d.content) } := by
  unfold retrySync
  rw [h]

theorem editDocument_eq_of_error (s : Store) (docId : String)
    (p : CommitPayload) (e : CommitError)
    (h : commitVersion s docId p = Except.error e) :
    editDocument s docId p = s := by
  unfold editDocument
  rw [h]

theorem editDocument_eq_of_ok (s : Store) (docId : String) (p : CommitPayload)
    (s1 : Store) (h : commitVersion s docId p = Except.ok s1) :
    editDocument s docId p
      = { documents := s1.documents, versions := s1.versions,
          changes := s1.changes,
          embeddings := applyChunkOps s1.embeddings
            (reconcileChunks s1.embeddings docId p.newContent) } := by
  unfold editDocument
  rw [h]

theorem replayStep_title (x docId author old new : String) (n : Nat) :
    replayStep x
      { documentId := docId, versionNumber := n,
        changeType := ChangeType.updated, fieldName := some "title",
        oldValue := some old, newValue := some new, authorId := author }
      = x := rfl

theorem replayStep_metadata (x docId author old new : String) (n : Nat) :
    replayStep x
      { documentId := docId, versionNumber := n,
        changeType := ChangeType.updated, fieldName := some "metadata",
        oldValue := some old, newValue := some new, authorId := author }
      = x := rfl

theorem replayStep_content (x docId author old new : String) (n : Nat) :
    replayStep x
      { documentId := docId, versionNumber := n,
        changeType := ChangeType.updated, fieldName := some "content",
        oldValue := some old, newValue := some new, authorId := author }
      = new := rfl

theorem replayStep_deleted (x docId author : String) (n : Nat) :
    replayStep x
      { documentId := docId, versionNumber := n,
        changeType := ChangeType.deleted, fieldName := none,
        oldValue := none, newValue := none, authorId := author }
      = x := rfl

theorem replayStep_created (x docId author new : String) (n : Nat) :
    replayStep x
      { documentId := docId, versionNumber := n,
        changeType := ChangeType.created, fieldName := none,
        oldValue := none, newValue := some new, authorId := author }
      = new := rfl

theorem replayContent_append (a b : List DocumentChangeRow) :
    replayContent (a ++ b) = b.foldl replayStep (replayContent a) := by
  simp [replayContent, List.foldl_append]

theorem mem_ite_singleton {c : Prop} [Decidable c] {r rec : DocumentChangeRow}
    (h : r ∈ if c then ([] : List DocumentChangeRow) else [rec]) :
    r = rec := by
  split at h
  · simp at h
  · simpa using h

theorem deriveChanges_documentId (docId : String) (n : Nat) (author : String)
    (oldV : Option DocumentVersionRow) (t c m : String)
    (st : DocumentStatus) :
    ∀ r ∈ deriveChanges docId n author oldV t c m st, r.documentId = docId := by
  intro r hr
  cases oldV with
  | none =>
    simp only [deriveChanges, List.mem_singleton] at hr
    rw [hr]
  | some o =>
    simp only [deriveChanges] at hr
    by_cases hst : (st == DocumentStatus.deleted) = true
    · rw [if_pos hst] at hr
      rw [List.mem_singleton.mp hr]
    · rw [if_neg hst] at hr
      rcases List.mem_append.mp hr with h12 | h3
      · rcases List.mem_append.mp h12 with h1 | h2
        · rw [mem_ite_singleton h1]
        · rw [mem_ite_singleton h2]
      · rw [mem_ite_singleton h3]

theorem foldl_replay_deriveChanges (o : DocumentVersionRow) (docId : String)
    (n : Nat) (author t c m : String) (st : DocumentStatus)
    (hst : ¬ (st == DocumentStatus.deleted) = true) :
    List.foldl replayStep o.content
      (deriveChanges docId n author (some o) t c m st) = c := by
  simp only [deriveChanges]
  rw [if_neg hst]
  by_cases ht : (o.title == t) = true <;>
    by_cases hc : (o.content == c) = true <;>
      by_cases hm : (o.metadata == m) = true <;>
        simp only [ht, hc, hm, eq_self_iff_true, if_true, if_false,
          List.foldl_append, List.foldl_cons, List.foldl_nil,
          List.nil_append, List.append_nil, replayStep_title,
          replayStep_content, replayStep_metadata] <;>
        first
          | exact beq_iff_eq.mp hc
          | rfl

theorem find?_append_singleton {α : Type} {p : α → Bool} {l : List α} {x : α}
    (hx : p x = false) : (l ++ [x]).find? p = l.find? p := by
  cases hfind : l.find? p with
  | some a => exact find?_append_some hfind
  | none =>
    rw [find?_append_none hfind]
    simp [hx]

theorem deriveChanges_filter_self {docId : String} {n : Nat} {author : String}
    {oldV : Option DocumentVersionRow} {t c m : String}
    {st : DocumentStatus} :
    (deriveChanges docId n author oldV t c m st).filter
      (fun r => r.documentId == docId)
      = deriveChanges docId n author oldV t c m st :=
  List.filter_eq_self.mpr (fun r hr => by
    have := deriveChanges_documentId docId n author oldV t c m st r hr
    simp [this])

theorem deriveChanges_filter_ne {docId docId2 : String} {n : Nat}
    {author : String} {oldV : Option DocumentVersionRow} {t c m : String}
    {st : DocumentStatus} (hne : (docId == docId2) = false) :
    (deriveChanges docId n author oldV t c m st).filter
      (fun r => r.documentId == docId2) = [] :=
  List.filter_eq_nil_iff.mpr (fun r hr => by
    have := deriveChanges_documentId docId n author oldV t c m st r hr
    simp [this, hne])

/-! ## Preservation of the per-document ledger invariant -/

theorem docOk_createDocument (s : Store) (docId cid t c m a : String)
    (h : DocOk s docId) : DocOk (createDocument s cid t c m a) docId := by
  cases hfind : findDocument s cid with
  | some d => rw [createDocument_eq_of_some s cid t c m a d hfind]; exact h
  | none =>
    rcases h with ⟨h1, h2, h3, h4⟩
    by_cases hcid : (cid == docId) = true
    · have hceq : cid = docId := beq_iff_eq.mp hcid
      subst hceq
      rcases h4 hfind with ⟨hv0, hc0⟩
      have hv : versionsOf (createDocument s cid t c m a) cid
          = [{ documentId := cid, versionNumber := 1, title := t,
               content := c, metadata := m, authorId := a,
               changeSummary := "created" }] := by
        rw [createDocument_eq_of_none s cid t c m a hfind]
        simp only [versionsOf]
        rw [List.filter_append,
          show s.versions.filter (fun v => v.documentId == cid)
            = versionsOf s cid from rfl, hv0]
        simp
      have hc : changesOf (createDocument s cid t c m a) cid
          = [{ documentId := cid, versionNumber := 1,
               changeType := ChangeType.created, fieldName := none,
               oldValue := none, newValue := some c, authorId := a }] := by
        rw [createDocument_eq_of_none s cid t c m a hfind]
        simp only [changesOf]
        rw [List.filter_append,
          show s.changes.filter (fun r => r.documentId == cid)
            = changesOf s cid from rfl, hc0]
        simp
      have hff : findDocument (createDocument s cid t c m a) cid
          = some { id := cid, title := t, content := c,
                   status := DocumentStatus.draft, metadata := m } := by
        rw [createDocument_eq_of_none s cid t c m a hfind]
        simp only [findDocument]
        rw [find?_append_none hfind]
        simp
      refine ⟨?_, ?_, ?_, ?_⟩
      · rw [hv]; rfl
      · rw [hv, hff]; rfl
      · rw [hc, hv]; rfl
      · rw [hff]; intro hno; cases hno
    · have hv : versionsOf (createDocument s cid t c m a) docId
          = versionsOf s docId := by
        rw [createDocument_eq_of_none s cid t c m a hfind]
        simp only [versionsOf]
        rw [List.filter_append]
        simp [hcid]
      have hc : changesOf (createDocument s cid t c m a) docId
          = changesOf s docId := by
        rw [createDocument_eq_of_none s cid t c m a hfind]
        simp only [changesOf]
        rw [List.filter_append]
        simp [hcid]
      have hff : findDocument (createDocument s cid t c m a) docId
          = findDocument s docId := by
        rw [createDocument_eq_of_none s cid t c m a hfind]
        simp only [findDocument]
        apply find?_append_singleton
        simpa using hcid
      exact ⟨by rw [hv]; exact h1, by rw [hv, hff]; exact h2,
        by rw [hc, hv]; exact h3, by rw [hff, hv, hc]; exact h4⟩

theorem docOk_retrySync (s : Store) (docId did : String)
    (h : DocOk s docId) : DocOk (retrySync s did) docId := by
  cases hfind : findDocument s did with
  | none => rw [retry_eq_of_none s did hfind]; exact h
  | some d =>
    rw [retry_eq_of_some s did d hfind]
    rcases h with ⟨h1, h2, h3, h4⟩
    exact ⟨h1, h2, h3, h4⟩

theorem docOk_softDelete (s : Store) (docId did author : String)
    (h : DocOk s docId) : DocOk (softDeleteDocument s did author) docId := by
  cases hfind : findDocument s did with
  | none => rw [softDelete_eq_of_none s did author hfind]; exact h
  | some d =>
    rcases h with ⟨h1, h2, h3, h4⟩
    have hv : versionsOf (softDeleteDocument s did author) docId
        = versionsOf s docId := by
      rw [softDelete_eq_of_some s did author d hfind]
      rfl
    by_cases hd : (did == docId) = true
    · have hdeq : did = docId := beq_iff_eq.mp hd
      subst hdeq
      have hc : changesOf (softDeleteDocument s did author) did
          = changesOf s did ++
            [{ documentId := did,
               versionNumber := latestVersionNumber s did,
               changeType := ChangeType.deleted, fieldName := none,
               oldValue := none, newValue := none, authorId := author }] := by
        rw [softDelete_eq_of_some s did author d hfind]
        simp only [changesOf]
        rw [List.filter_append,
          show s.changes.filter (fun r => r.documentId == did)
            = changesOf s did from rfl]
        congr 1
        simp
      have hff : findDocument (softDeleteDocument s did author) did
          = some { d with status := DocumentStatus.deleted } := by
        rw [softDelete_eq_of_some s did author d hfind]
        simp only [findDocument]
        rw [find?_mapDocRow
            (fun x => { x with status := DocumentStatus.deleted })
            (fun x => rfl) s.documents did did,
          if_pos (by simp)]
        rw [show s.documents.find? (fun x => x.id == did) = some d
          from hfind]
        rfl
      refine ⟨by rw [hv]; exact h1, ?_, ?_, ?_⟩
      · rw [hv, hff]
        rw [hfind] at h2
        simpa using h2
      · rw [hc, hv, replayContent_append, h3, List.foldl_cons,
          List.foldl_nil, replayStep_deleted]
      · rw [hff]; intro hno; cases hno
    · have hc : changesOf (softDeleteDocument s did author) docId
          = changesOf s docId := by
        rw [softDelete_eq_of_some s did author d hfind]
        simp only [changesOf]
        rw [List.filter_append]
        simp [hd]
      have hff : findDocument (softDeleteDocument s did author) docId
          = findDocument s docId := by
        rw [softDelete_eq_of_some s did author d hfind]
        simp only [findDocument]
        rw [find?_mapDocRow
            (fun x => { x with status := DocumentStatus.deleted })
            (fun x => rfl) s.documents did docId,
          if_neg hd]
      exact ⟨by rw [hv]; exact h1, by rw [hv, hff]; exact h2,
        by rw [hc, hv]; exact h3, by rw [hff, hv, hc]; exact h4⟩

theorem docOk_editDocument (s : Store) (docId eid : String) (p : CommitPayload)
    (h : DocOk s docId) : DocOk (editDocument s eid p) docId := by
  cases hcv : commitVersion s eid p with
  | error e => rw [editDocument_eq_of_error s eid p e hcv]; exact h
  | ok s1 =>
    rcases commitGivenLatest_ok hcv with ⟨d, hfind, hst, hver, hs1⟩
    rcases h with ⟨h1, h2, h3, h4⟩
    by_cases he : (eid == docId) = true
    · have heq : eid = docId := beq_iff_eq.mp he
      subst heq
      have hlen := latestVersionNumber_eq_length s eid h1
      have ho : ∃ o, (versionsOf s eid).getLast? = some o
          ∧ o.content = d.content := by
        rw [hfind] at h2
        cases hgl : (versionsOf s eid).getLast? with
        | none => rw [hgl] at h2; simp at h2
        | some o =>
          rw [hgl] at h2
          refine ⟨o, rfl, ?_⟩
          simpa using h2
      rcases ho with ⟨o, hgl, hoc⟩
      have hv : versionsOf (editDocument s eid p) eid
          = versionsOf s eid
            ++ [mkVersionRow eid (latestVersionNumber s eid + 1) p] := by
        rw [editDocument_eq_of_ok s eid p s1 hcv, hs1]
        simp only [versionsOf]
        rw [List.filter_append]
        congr 1
        simp [mkVersionRow]
      have hc : changesOf (editDocument s eid p) eid
          = changesOf s eid ++ deriveChanges eid
              (latestVersionNumber s eid + 1) p.author (some o) p.newTitle
              p.newContent p.newMetadata d.status := by
        rw [editDocument_eq_of_ok s eid p s1 hcv, hs1]
        simp only [changesOf]
        rw [hgl, List.filter_append, deriveChanges_filter_self]
      have hff : findDocument (editDocument s eid p) eid
          = some { d with
                     title := p.newTitle
                     content := p.newContent
                     metadata := p.newMetadata } := by
        rw [editDocument_eq_of_ok s eid p s1 hcv, hs1]
        simp only [findDocument, updateLiveRow]
        rw [find?_mapDocRow
            (fun x => { x with
                          title := p.newTitle
                          content := p.newContent
                          metadata := p.newMetadata })
            (fun x => rfl) s.documents eid eid,
          if_pos (by simp)]
        rw [show s.documents.find? (fun x => x.id == eid) = some d
          from hfind]
        rfl
      refine ⟨?_, ?_, ?_, ?_⟩
      · rw [hv, List.map_append, h1, List.length_append]
        simp only [mkVersionRow, List.map_cons, List.map_nil,
          List.length_cons, List.length_nil]
        rw [hlen, List.range'_concat]
        simp [Nat.add_comm]
      · rw [hv, hff, List.getLast?_concat]
        rfl
      · rw [hc, hv, replayContent_append, h3, hgl, List.getLast?_concat]
        simp only [Option.map_some', Option.getD_some]
        exact foldl_replay_deriveChanges o eid
          (latestVersionNumber s eid + 1) p.author p.newTitle p.newContent
          p.newMetadata d.status (by simp [hst])
      · rw [hff]; intro hno; cases hno
    · have hv : versionsOf (editDocument s eid p) docId
          = versionsOf s docId := by
        rw [editDocument_eq_of_ok s eid p s1 hcv, hs1]
        simp only [versionsOf]
        rw [List.filter_append]
        simp [mkVersionRow, he]
      have hc : changesOf (editDocument s eid p) docId
          = changesOf s docId := by
        rw [editDocument_eq_of_ok s eid p s1 hcv, hs1]
        simp only [changesOf]
        rw [List.filter_append,
          deriveChanges_filter_ne (show (eid == docId) = false by
            simpa using he), List.append_nil]
      have hff : findDocument (editDocument s eid p) docId
          = findDocument s docId := by
        rw [editDocument_eq_of_ok s eid p s1 hcv, hs1]
        simp only [findDocument, updateLiveRow]
        rw [find?_mapDocRow
            (fun x => { x with
                          title := p.newTitle
                          content := p.newContent
                          metadata := p.newMetadata })
            (fun x => rfl) s.documents eid docId,
          if_neg he]
      exact ⟨by rw [hv]; exact h1, by rw [hv, hff]; exact h2,
        by rw [hc, hv]; exact h3, by rw [hff, hv, hc]; exact h4⟩

theorem docOk_applyOp (s : Store) (docId : String) (op : Op)
    (h : DocOk s docId) : DocOk (applyOp s op) docId := by
  cases op with
  | create cid t c m a => exact docOk_createDocument s docId cid t c m a h
  | edit eid p => exact docOk_editDocument s docId eid p h
  | softDelete did author => exact docOk_softDelete s docId did author h
  | retry did => exact docOk_retrySync s docId did h

theorem docOk_applyOps :
    ∀ (ops : List Op) (s : Store) (docId : String),
      DocOk s docId → DocOk (applyOps s ops) docId := by
  intro ops
  induction ops with
  | nil => intro s docId h; simpa [applyOps] using h
  | cons op rest ih =>
    intro s docId h
    simpa [applyOps] using ih (applyOp s op) docId (docOk_applyOp s docId op h)

theorem docOk_initStore (docId : String) : DocOk initStore docId :=
  ⟨rfl, rfl, rfl, fun _ => ⟨rfl, rfl⟩⟩

theorem docOk_reachable (ops : List Op) (docId : String) :
    DocOk (applyOps initStore ops) docId :=
  docOk_applyOps ops initStore docId (docOk_initStore docId)

/-! ## Append-only behavior of the Coordinator's mutations -/

theorem applyOp_versions_append (s : Store) (op : Op) :
    ∃ tl, (applyOp s op).versions = s.versions ++ tl := by
  cases op with
  | create cid t c m a =>
    cases hfind : findDocument s cid with
    | some d =>
      refine ⟨[], ?_⟩
      simp only [applyOp]
      rw [createDocument_eq_of_some s cid t c m a d hfind, List.append_nil]
    | none =>
      refine ⟨[{ documentId := cid, versionNumber := 1, title := t,
                 content := c, metadata := m, authorId := a,
                 changeSummary := "created" }], ?_⟩
      simp only [applyOp]
      rw [createDocument_eq_of_none s cid t c m a hfind]
  | edit eid p =>
    cases hcv : commitVersion s eid p with
    | error e =>
      refine ⟨[], ?_⟩
      simp only [applyOp]
      rw [editDocument_eq_of_error s eid p e hcv, List.append_nil]
    | ok s1 =>
      rcases commitGivenLatest_ok hcv with ⟨d, hfind, hst, hver, hs1⟩
      refine ⟨[mkVersionRow eid (latestVersionNumber s eid + 1) p], ?_⟩
      simp only [applyOp]
      rw [editDocument_eq_of_ok s eid p s1 hcv, hs1]
  | softDelete did author =>
    cases hfind : findDocument s did with
    | none =>
      refine ⟨[], ?_⟩
      simp only [applyOp]
      rw [softDelete_eq_of_none s did author hfind, List.append_nil]
    | some d =>
      refine ⟨[], ?_⟩
      simp only [applyOp]
      rw [softDelete_eq_of_some s did author d hfind, List.append_nil]
  | retry did =>
    cases hfind : findDocument s did with
    | none =>
      refine ⟨[], ?_⟩
      simp only [applyOp]
      rw [retry_eq_of_none s did hfind, List.append_nil]
    | some d =>
      refine ⟨[], ?_⟩
      simp only [applyOp]
      rw [retry_eq_of_some s did d hfind, List.append_nil]

theorem applyOp_changes_append (s : Store) (op : Op) :
    ∃ tl, (applyOp s op).changes = s.changes ++ tl := by
  cases op with
  | create cid t c m a =>
    cases hfind : findDocument s cid with
    | some d =>
      refine ⟨[], ?_⟩
      simp only [applyOp]
      rw [createDocument_eq_of_some s cid t c m a d hfind, List.append_nil]
    | none =>
      refine ⟨[{ documentId := cid, versionNumber := 1,
                 changeType := ChangeType.created, fieldName := none,
                 oldValue := none, newValue := some c,
                 authorId := a }], ?_⟩
      simp only [applyOp]
      rw [createDocument_eq_of_none s cid t c m a hfind]
  | edit eid p =>
    cases hcv : commitVersion s eid p with
    | error e =>
      refine ⟨[], ?_⟩
      simp only [applyOp]
      rw [editDocument_eq_of_error s eid p e hcv, List.append_nil]
    | ok s1 =>
      rcases commitGivenLatest_ok hcv with ⟨d, hfind, hst, hver, hs1⟩
      refine ⟨deriveChanges eid (latestVersionNumber s eid + 1) p.author
        ((versionsOf s eid).getLast?) p.newTitle p.newContent
        p.newMetadata d.status, ?_⟩
      simp only [applyOp]
      rw [editDocument_eq_of_ok s eid p s1 hcv, hs1]
  | softDelete did author =>
    cases hfind : findDocument s did with
    | none =>
      refine ⟨[], ?_⟩
      simp only [applyOp]
      rw [softDelete_eq_of_none s did author hfind, List.append_nil]
    | some d =>
      refine ⟨[{ documentId := did,
                 versionNumber := latestVersionNumber s did,
                 changeType := ChangeType.deleted, fieldName := none,
                 oldValue := none, newValue := none,
                 authorId := author }], ?_⟩
      simp only [applyOp]
      rw [softDelete_eq_of_some s did author d hfind]
  | retry did =>
    cases hfind : findDocument s did with
    | none =>
      refine ⟨[], ?_⟩
      simp only [applyOp]
      rw [retry_eq_of_none s did hfind, List.append_nil]
    | some d =>
      refine ⟨[], ?_⟩
      simp only [applyOp]
      rw [retry_eq_of_some s did d hfind, List.append_nil]

theorem mapDocRow_preserves_ids (f : DocumentRow → DocumentRow)
    (hf : ∀ x, (f x).id = x.id) (docs : List DocumentRow) (docId : String) :
    ∀ d2 ∈ docs, ∃ d3 ∈ mapDocRow f docs docId, d3.id = d2.id := by
  intro d2 h2
  refine ⟨if (d2.id == docId) = true then f d2 else d2, ?_, ?_⟩
  · exact List.mem_map_of_mem _ h2
  · by_cases hcase : (d2.id == docId) = true
    · rw [if_pos hcase]; exact hf d2
    · rw [if_neg hcase]

theorem applyOp_documents_ids (s : Store) (op : Op) :
    ∀ d2 ∈ s.documents, ∃ d3 ∈ (applyOp s op).documents, d3.id = d2.id := by
  intro d2 h2
  cases op with
  | create cid t c m a =>
    cases hfind : findDocument s cid with
    | some d =>
      refine ⟨d2, ?_, rfl⟩
      simp only [applyOp]
      rw [createDocument_eq_of_some s cid t c m a d hfind]
      exact h2
    | none =>
      refine ⟨d2, ?_, rfl⟩
      simp only [applyOp]
      rw [createDocument_eq_of_none s cid t c m a hfind]
      exact List.mem_append_left _ h2
  | edit eid p =>
    cases hcv : commitVersion s eid p with
    | error e =>
      refine ⟨d2, ?_, rfl⟩
      simp only [applyOp]
      rw [editDocument_eq_of_error s eid p e hcv]
      exact h2
    | ok s1 =>
      rcases commitGivenLatest_ok hcv with ⟨d, hfind, hst, hver, hs1⟩
      rcases mapDocRow_preserves_ids
        (fun x => { x with
                      title := p.newTitle
                      content := p.newContent
                      metadata := p.newMetadata })
        (fun x => rfl) s.documents eid d2 h2 with ⟨d3, h3, hid⟩
      refine ⟨d3, ?_, hid⟩
      simp only [applyOp]
      rw [editDocument_eq_of_ok s eid p s1 hcv, hs1]
      exact h3
  | softDelete did author =>
    cases hfind : findDocument s did with
    | none =>
      refine ⟨d2, ?_, rfl⟩
      simp only [applyOp]
      rw [softDelete_eq_of_none s did author hfind]
      exact h2
    | some d =>
      rcases mapDocRow_preserves_ids
        (fun x => { x with status := DocumentStatus.deleted })
        (fun x => rfl) s.documents did d2 h2 with ⟨d3, h3, hid⟩
      refine ⟨d3, ?_, hid⟩
      simp only [applyOp]
      rw [softDelete_eq_of_some s did author d hfind]
      exact h3
  | retry did =>
    cases hfind : findDocument s did with
    | none =>
      refine ⟨d2, ?_, rfl⟩
      simp only [applyOp]
      rw [retry_eq_of_none s did hfind]
      exact h2
    | some d =>
      refine ⟨d2, ?_, rfl⟩
      simp only [applyOp]
      rw [retry_eq_of_some s did d hfind]
      exact h2

/-! ## Commit success and conflict -/

theorem commitGivenLatest_ok_intro (s : Store) (docId : String)
    (latest : Nat) (p : CommitPayload) (d : DocumentRow)
    (hfind : findDocument s docId = some d)
    (hst : (d.status == DocumentStatus.deleted) = false)
    (hhas : hasVersion s docId (latest + 1) = false) :
    commitGivenLatest s docId latest p = Except.ok
      { documents := updateLiveRow s.documents docId p,
        versions := s.versions ++ [mkVersionRow docId (latest + 1) p],
        changes := s.changes ++ deriveChanges docId (latest + 1) p.author
          ((versionsOf s docId).getLast?) p.newTitle p.newContent
          p.newMetadata d.status,
        embeddings := s.embeddings } := by
  unfold commitGivenLatest
  simp only [hfind]
  rw [if_neg (by simp [hst]), if_neg (by simp [hhas])]

theorem commit_conflict_after {s1 : Store} {docId : String} {latest : Nat}
    {p2 : CommitPayload} {d1 : DocumentRow}
    (hfind1 : findDocument s1 docId = some d1)
    (hst1 : (d1.status == DocumentStatus.deleted) = false)
    (hhas : hasVersion s1 docId (latest + 1) = true) :
    commitGivenLatest s1 docId latest p2
      = Except.error CommitError.VersionConflict := by
  unfold commitGivenLatest
  simp only [hfind1]
  rw [if_neg (by simp [hst1]), if_pos hhas]

/-! ## Claim theorems for the version ledger and change log -/

/-- C1: in every state reachable by Coordinator mutations from the empty
store, each document's version numbers form the gapless ascending sequence
1..n in insertion order (hence each number is unique per document), the
content stored under the highest version number equals the live Document
row's content, and every further operation only appends version rows, so
version numbers are never removed or reused. -/
theorem version_numbers_gapless :
    ∀ (ops : List Op) (docId : String) (op : Op),
      ((versionsOf (applyOps initStore ops) docId).map
          (fun v => v.versionNumber)
        = List.range' 1 (versionsOf (applyOps initStore ops) docId).length)
      ∧ (((versionsOf (applyOps initStore ops) docId).getLast?).map
          (fun v => v.content)
        = (findDocument (applyOps initStore ops) docId).map
            (fun d => d.content))
      ∧ (∃ tl, versionsOf (applyOp (applyOps initStore ops) op) docId
          = versionsOf (applyOps initStore ops) docId ++ tl) := by
  intro ops docId op
  rcases docOk_reachable ops docId with ⟨h1, h2, h3, h4⟩
  refine ⟨h1, h2, ?_⟩
  rcases applyOp_versions_append (applyOps initStore ops) op with ⟨tl, htl⟩
  refine ⟨tl.filter (fun v => v.documentId == docId), ?_⟩
  simp only [versionsOf, htl, List.filter_append]

/-- C2: two concurrent commitVersion calls racing on the same next version
number — both have read the same latest version number; whichever insert
applies first succeeds, and the other then fails with VersionConflict via
the UNIQUE(document_id, version_number) constraint, so exactly one of the
two racing commits succeeds and no race lets both succeed with the same
version number. -/
theorem concurrent_commit_race (s : Store) (docId : String)
    (p1 p2 : CommitPayload) (d : DocumentRow)
    (hfind : findDocument s docId = some d)
    (hstatus : (d.status == DocumentStatus.deleted) = false) :
    ∃ s1, commitGivenLatest s docId (latestVersionNumber s docId) p1
        = Except.ok s1
      ∧ commitGivenLatest s1 docId (latestVersionNumber s docId) p2
        = Except.error CommitError.VersionConflict := by
  have hv1 : hasVersion s docId (latestVersionNumber s docId + 1) = false :=
    hasVersion_eq_false_of_gt s docId _ (by omega)
  refine ⟨_, commitGivenLatest_ok_intro s docId
    (latestVersionNumber s docId) p1 d hfind hstatus hv1, ?_⟩
  apply commit_conflict_after
  · simp only [findDocument, updateLiveRow]
    rw [find?_mapDocRow
        (fun x => { x with
                      title := p1.newTitle
                      content := p1.newContent
                      metadata := p1.newMetadata })
        (fun x => rfl) s.documents docId docId, if_pos (by simp)]
    rw [show s.documents.find? (fun x => x.id == docId) = some d
      from hfind]
    rfl
  · exact hstatus
  · simp only [hasVersion]
    rw [List.any_append]
    simp [mkVersionRow]

/-- Witness for `concurrent_commit_race` at a concrete one-document
store: the first racing commit succeeds and the second reports
VersionConflict. -/
theorem concurrent_commit_race_witness :
    (findDocument
        { documents :=
            [{ id := "d1", title := "T", content := "c0",
               status := DocumentStatus.draft, metadata := "m" }],
          versions := [], changes := [], embeddings := [] } "d1"
      = some
          { id := "d1", title := "T", content := "c0",
            status := DocumentStatus.draft, metadata := "m" })
    ∧ ((DocumentStatus.draft == DocumentStatus.deleted) = false)
    ∧ ∃ s1, commitGivenLatest
          { documents :=
              [{ id := "d1", title := "T", content := "c0",
                 status := DocumentStatus.draft, metadata := "m" }],
            versions := [], changes := [], embeddings := [] } "d1"
          (latestVersionNumber
            { documents :=
                [{ id := "d1", title := "T", content := "c0",
                   status := DocumentStatus.draft, metadata := "m" }],
              versions := [], changes := [], embeddings := [] } "d1")
          { newTitle := "A", newContent := "ca", newMetadata := "ma",
            author := "alice", summary := "sa" }
          = Except.ok s1
        ∧ commitGivenLatest s1 "d1"
            (latestVersionNumber
              { documents :=
                  [{ id := "d1", title := "T", content := "c0",
                     status := DocumentStatus.draft, metadata := "m" }],
                versions := [], changes := [], embeddings := [] } "d1")
            { newTitle := "B", newContent := "cb", newMetadata := "mb",
              author := "bob", summary := "sb" }
            = Except.error CommitError.VersionConflict := by
  refine ⟨by rfl, by rfl, ?_⟩
  exact concurrent_commit_race
    { documents :=
        [{ id := "d1", title := "T", content := "c0",
           status := DocumentStatus.draft, metadata := "m" }],
      versions := [], changes := [], embeddings := [] } "d1"
    { newTitle := "A", newContent := "ca", newMetadata := "ma",
      author := "alice", summary := "sa" }
    { newTitle := "B", newContent := "cb", newMetadata := "mb",
      author := "bob", summary := "sb" }
    { id := "d1", title := "T", content := "c0",
      status := DocumentStatus.draft, metadata := "m" }
    (by rfl) (by rfl)

/-- C7: replaying all ChangeRecords of a document in order reconstructs a
content equal to the content of the latest DocumentVersion, in every state
reachable by Coordinator mutations from the empty store. -/
theorem change_log_roundtrip (ops : List Op) (docId : String)
    (v : DocumentVersionRow)
    (h : (versionsOf (applyOps initStore ops) docId).getLast? = some v) :
    replayContent (changesOf (applyOps initStore ops) docId) = v.content := by
  rcases docOk_reachable ops docId with ⟨h1, h2, h3, h4⟩
  rw [h3, h]
  rfl

/-- Witness for `change_log_roundtrip`: creating a document and replaying
its change log yields the created content. -/
theorem change_log_roundtrip_witness :
    ((versionsOf (applyOps initStore
        [Op.create "d1" "Title" "hello" "m" "alice"]) "d1").getLast?
      = some { documentId := "d1", versionNumber := 1, title := "Title",
               content := "hello", metadata := "m", authorId := "alice",
               changeSummary := "created" })
    ∧ replayContent (changesOf (applyOps initStore
        [Op.create "d1" "Title" "hello" "m" "alice"]) "d1") = "hello" :=
  ⟨by rfl,
   change_log_roundtrip [Op.create "d1" "Title" "hello" "m" "alice"] "d1"
     { documentId := "d1", versionNumber := 1, title := "Title",
       content := "hello", metadata := "m", authorId := "alice",
       changeSummary := "created" } (by rfl)⟩

/-- C8: deleting a document is a soft delete — it sets the document's
status to deleted, leaves every existing version, chunk and change row
untouched (the change log only gains the single deleted audit record),
and no Coordinator operation ever removes a document row, a version row
or a change row. -/
theorem soft_delete_frame (s : Store) (docId author : String)
    (d : DocumentRow) (op : Op)
    (hfind : findDocument s docId = some d) :
    ((softDeleteDocument s docId author).versions = s.versions
      ∧ (softDeleteDocument s docId author).embeddings = s.embeddings
      ∧ (∃ tl, (softDeleteDocument s docId author).changes
          = s.changes ++ tl)
      ∧ findDocument (softDeleteDocument s docId author) docId
          = some { d with status := DocumentStatus.deleted })
    ∧ ((∃ tl, (applyOp s op).versions = s.versions ++ tl)
      ∧ (∃ tl, (applyOp s op).changes = s.changes ++ tl)
      ∧ ∀ d2 ∈ s.documents, ∃ d3 ∈ (applyOp s op).documents,
          d3.id = d2.id) := by
  constructor
  · rw [softDelete_eq_of_some s docId author d hfind]
    refine ⟨rfl, rfl, ⟨_, rfl⟩, ?_⟩
    simp only [findDocument]
    rw [find?_mapDocRow
        (fun x => { x with status := DocumentStatus.deleted })
        (fun x => rfl) s.documents docId docId, if_pos (by simp)]
    rw [show s.documents.find? (fun x => x.id == docId) = some d
      from hfind]
    rfl
  · exact ⟨applyOp_versions_append s op, applyOp_changes_append s op,
      applyOp_documents_ids s op⟩

/-- Witness for `soft_delete_frame`: soft-deleting a concrete document
leaves its version rows unchanged. -/
theorem soft_delete_frame_witness :
    (findDocument
        { documents :=
            [{ id := "w1", title := "T", content := "c",
               status := DocumentStatus.published, metadata := "m" }],
          versions := [], changes := [], embeddings := [] } "w1"
      = some
          { id := "w1", title := "T", content := "c",
            status := DocumentStatus.published, metadata := "m" })
    ∧ (softDeleteDocument
        { documents :=
            [{ id := "w1", title := "T", content := "c",
               status := DocumentStatus.published, metadata := "m" }],
          versions := [], changes := [], embeddings := [] } "w1"
        "adele").versions
      = ({ documents :=
             [{ id := "w1", title := "T", content := "c",
                status := DocumentStatus.published, metadata := "m" }],
           versions := [], changes := [],
           embeddings := [] } : Store).versions :=
  ⟨by rfl,
   (soft_delete_frame
     { documents :=
         [{ id := "w1", title := "T", content := "c",
            status := DocumentStatus.published, metadata := "m" }],
       versions := [], changes := [], embeddings := [] } "w1" "adele"
     { id := "w1", title := "T", content := "c",
       status := DocumentStatus.published, metadata := "m" }
     (Op.retry "w1") (by rfl)).1.1⟩

end VKS
